import Mathlib

/-
Verification of the itinerary-extension search and price-improvement
reconciliation core of the `baahn` repository (src/index.ts).

The TypeScript source is shallowly embedded below.  JavaScript objects with
optional fields become structures with `Option` fields; the journey lookup
table (a string-keyed JS object) becomes an association list on which
assignment overwrites the value stored at an existing key in place and
appends fresh keys at the end, exactly as JS property assignment does.
Prices are rationals; a missing `price` object or a missing `amount`
(null/undefined in JS) is `none`.  The provider (`hafas-client`) and the
static station graph are external collaborators and enter as parameters.
-/

set_option maxHeartbeats 1000000

namespace Baahn

/-- A stop as referenced by a leg: `leg.origin` / `leg.destination` may be
absent, and its `id` may itself be absent. -/
structure Stop where
  id : Option String
deriving DecidableEq, Repr

/-- One leg of a journey, with the fields `hashLeg` and `update` read:
origin, destination, and planned/actual departure and arrival times. -/
structure Leg where
  origin : Option Stop
  destination : Option Stop
  departure : Option String
  arrival : Option String
  plannedDeparture : Option String
  plannedArrival : Option String
deriving DecidableEq, Repr

/-- A price object; `amount` may be absent (price unknown). -/
structure Price where
  amount : Option ℚ
deriving DecidableEq, Repr

/-- The `trick` attribute of a `BaahnJourney`: how the saving was achieved. -/
structure Trick where
  prepend : List Leg
  append : List Leg
  oldPrice : ℚ
deriving DecidableEq, Repr

/-- A journey: legs, an optional price, and the optional `trick` attribute. -/
structure BaahnJourney where
  legs : List Leg
  price : Option Price
  trick : Option Trick
deriving DecidableEq, Repr

/-- `BaahnJourneyMap`: the string-keyed JS object used as a lookup table,
modelled as an association list in insertion order. -/
abbrev JourneyMap := List (String × BaahnJourney)

/-- The static station graph `stationGraph.json`: a partial map from a
station to its list of adjacent stations. -/
abbrev StationGraph := String → Option (List String)

/-- One planned search query: the arguments `journeys(from, to, opt)`
receives, with the value `opt.via` holds at that call. -/
structure Query where
  origin : String
  destination : String
  via : Option String
deriving DecidableEq, Repr

/-- One settled outcome of `Promise.allSettled`: a fulfilled query carrying
its `value?.journeys ?? []` list, or a rejected one. -/
inductive Settled where
  | fulfilled (js : List BaahnJourney)
  | rejected
deriving DecidableEq, Repr

/-- The journeys a settled outcome contributes (`value?.journeys ?? []`). -/
def journeysOf : Settled → List BaahnJourney
  | Settled.fulfilled js => js
  | Settled.rejected => []

/-- JS template-literal rendering of a possibly-absent string. -/
def optStr (s : Option String) : String := s.getD "undefined"

/-- `leg.origin?.id`. -/
def legOriginId (l : Leg) : Option String := l.origin.bind Stop.id

/-- `leg.destination?.id`. -/
def legDestinationId (l : Leg) : Option String := l.destination.bind Stop.id

/-- `hashLeg`: identifiable string from a leg of a journey, i.e.
`origin?.id @ (plannedDeparture ?? departure) > destination?.id @ (plannedArrival ?? arrival)`. -/
def hashLeg (leg : Leg) : String :=
  optStr (legOriginId leg) ++ "@" ++ optStr (leg.plannedDeparture.orElse fun _ => leg.departure)
    ++ ">"
    ++ optStr (legDestinationId leg) ++ "@" ++ optStr (leg.plannedArrival.orElse fun _ => leg.arrival)

/-- `hashLegs`: hash of the legs of a journey, the per-leg hashes joined by a colon. -/
def hashLegs (legs : List Leg) : String :=
  String.intercalate ":" (legs.map hashLeg)

/-- `adjacentStations`: adjacent stations in the German long-distance
network, `stationGraph[station] || []`. -/
def adjacentStations (g : StationGraph) (station : String) : List String :=
  (g station).getD []

/-- Lookup in the journey map: the value of the first entry with the given
key, the JS property read `journeyMap[hash]`. -/
def getJ : JourneyMap → String → Option BaahnJourney
  | [], _ => none
  | p :: rest, k => if p.1 = k then some p.2 else getJ rest k

/-- Assignment `journeyMap[hash] = journey` on the JS object: overwrite the
value at an existing key in place, append a fresh key at the end. -/
def setJ : JourneyMap → String → BaahnJourney → JourneyMap
  | [], k, v => [(k, v)]
  | p :: rest, k, v => if p.1 = k then (k, v) :: rest else p :: setJ rest k v

/-- `Object.values(journeyMap)`: the stored journeys in insertion order. -/
def valuesJ (M : JourneyMap) : List BaahnJourney := M.map Prod.snd

/-- `journey.price?.amount`: the price amount when both the price object and
its amount are present. -/
def priceAmount (j : BaahnJourney) : Option ℚ := j.price.bind Price.amount

/-- The two trimming loops of `update`: shift legs into `prepend` while the
first leg does not originate at `from`, then pop legs into `append`
(unshifted, so travel order is preserved) while the last leg does not
terminate at `to`.  Returns `(prepend, middle, append)` where `middle` is
what remains of the legs. -/
def trimLegs (legs : List Leg) (fr toS : String) : List Leg × List Leg × List Leg :=
  let prepend := legs.takeWhile fun l => decide (legOriginId l ≠ some fr)
  let rest := legs.dropWhile fun l => decide (legOriginId l ≠ some fr)
  let rrest := rest.reverse
  let append := (rrest.takeWhile fun l => decide (legDestinationId l ≠ some toS)).reverse
  let middle := (rrest.dropWhile fun l => decide (legDestinationId l ≠ some toS)).reverse
  (prepend, middle, append)

/-- The `prepend` buffer `update` accumulates for a candidate journey. -/
def trimmedPrepend (j : BaahnJourney) (fr toS : String) : List Leg := (trimLegs j.legs fr toS).1

/-- The legs of a candidate journey that remain after both trimming loops. -/
def trimmedMiddle (j : BaahnJourney) (fr toS : String) : List Leg := (trimLegs j.legs fr toS).2.1

/-- The `append` buffer `update` accumulates for a candidate journey. -/
def trimmedAppend (j : BaahnJourney) (fr toS : String) : List Leg := (trimLegs j.legs fr toS).2.2

/-- `update`: updates the journey map if the candidate journey contains a
cheaper price, following src/index.ts line by line: bail out on a null
price; trim the extension off the legs; bail out if trimming exhausted the
legs; look the trimmed legs up in the map; bail out if the stored journey
is missing or `!oldJourney.price?.amount` (absent or zero amount); bail out
unless the candidate price is strictly below the stored amount; otherwise
attach the trick (propagating a pre-existing `oldPrice`) and store the
trimmed candidate under the hash. -/
def update (M : JourneyMap) (j : BaahnJourney) (fr toS : String) : JourneyMap :=
  if j.price = none then M
  else if trimmedMiddle j fr toS = [] then M
  else
    match getJ M (hashLegs (trimmedMiddle j fr toS)) with
    | none => M
    | some oldJourney =>
      match priceAmount oldJourney with
      | none => M
      | some oldAmount =>
        if oldAmount = 0 then M
        else
          match priceAmount j with
          | none => M
          | some amount =>
            if oldAmount ≤ amount then M
            else
              setJ M (hashLegs (trimmedMiddle j fr toS))
                { j with legs := trimmedMiddle j fr toS,
                         trick := some ⟨trimmedPrepend j fr toS, trimmedAppend j fr toS,
                                        (oldJourney.trick.map Trick.oldPrice).getD oldAmount⟩ }

/-- `buildRequests`: queries the original connection and possible
longer/cheaper ones.  The sequential mutation of `opt.via`, `from` and `to`
in the source is threaded through explicit rebindings: the baseline query
first, then one query per neighbor of `from` (which becomes the new
origin) with `via = from`, then — after `from = opt.via` restores the
original origin — one query per neighbor of `to` with `via = to`. -/
def buildRequests (g : StationGraph) (fr toS : String) (optVia : Option String) : List Query :=
  let requests : List Query := [⟨fr, toS, optVia⟩]
  let viaA := some fr
  let requests := requests ++ (adjacentStations g fr).map fun newOrigin => ⟨newOrigin, toS, viaA⟩
  let frA := viaA.getD fr
  let viaB := some toS
  requests ++ (adjacentStations g toS).map fun newDestination => ⟨frA, newDestination, viaB⟩

/-- One step of building the baseline index: `continue` when
`!journey.price || !journey.price.amount`, otherwise store the journey
under the hash of its legs. -/
def baselineInsert (M : JourneyMap) (j : BaahnJourney) : JourneyMap :=
  match priceAmount j with
  | none => M
  | some a => if a = 0 then M else setJ M (hashLegs j.legs) j

/-- The baseline index `cheapestJourneys` built from the original
connection's journeys. -/
def buildBaseline (js : List BaahnJourney) : JourneyMap :=
  js.foldl baselineInsert []

/-- Feeding every journey of one fulfilled extension query through `update`. -/
def reconcileJourneys (M : JourneyMap) (js : List BaahnJourney) (fr toS : String) : JourneyMap :=
  js.foldl (fun M j => update M j fr toS) M

/-- Processing one settled extension outcome: rejected queries contribute
nothing. -/
def applySettled (M : JourneyMap) (c : Settled) (fr toS : String) : JourneyMap :=
  match c with
  | Settled.fulfilled js => reconcileJourneys M js fr toS
  | Settled.rejected => M

/-- The body of `findJourneys` after `Promise.allSettled`: an empty outcome
list or a rejected baseline yields `[]`; otherwise the baseline index is
built from the first outcome, every remaining outcome is reconciled, and
the map's values are returned. -/
def mergeConnections (connections : List Settled) (fr toS : String) : List BaahnJourney :=
  match connections with
  | [] => []
  | Settled.rejected :: _ => []
  | Settled.fulfilled js :: rest =>
      valuesJ (rest.foldl (fun M c => applySettled M c fr toS) (buildBaseline js))

/-- `findJourneys`: clears any caller-supplied `via` option (the warning
side effect is not modelled), plans the requests, settles them against the
provider `search`, and merges the outcomes. -/
def findJourneys (g : StationGraph) (search : Query → Settled) (fr toS : String)
    (optVia : Option String) : List BaahnJourney :=
  let _ := optVia
  let requests := buildRequests g fr toS none
  let connections := requests.map search
  mergeConnections connections fr toS

/-- Key coherence: every entry of the journey map is stored under the hash
of the legs of the journey it holds. -/
def coherentMap (M : JourneyMap) : Prop :=
  ∀ p ∈ M, p.1 = hashLegs p.2.legs

/-- Every improved entry has a known price amount strictly below the
`oldPrice` its trick records. -/
def tricksBounded (M : JourneyMap) : Prop :=
  ∀ p ∈ M, ∀ t, p.2.trick = some t → ∃ a, priceAmount p.2 = some a ∧ a < t.oldPrice

/-- Anchoring to a baseline index `M0`: unimproved entries are still the
baseline entries themselves, and the `oldPrice` of every improved entry is
the price amount the baseline entry under the same key carries. -/
def anchoredTo (M0 M : JourneyMap) : Prop :=
  ∀ p ∈ M,
    (p.2.trick = none → getJ M0 p.1 = some p.2) ∧
    (∀ t, p.2.trick = some t → ∃ b, getJ M0 p.1 = some b ∧ priceAmount b = some t.oldPrice)

/-- The keys of a journey map in insertion order. -/
def keysOf (M : JourneyMap) : List String := M.map Prod.fst

/-- A leg between two named stops with planned times equal to actual ones,
used as concrete test data. -/
def mkLeg (o d dep arr : String) : Leg :=
  ⟨some ⟨some o⟩, some ⟨some d⟩, some dep, some arr, some dep, some arr⟩

/-- An extension leg reaching the requested origin. -/
def legXA : Leg := mkLeg "X" "A" "t0" "t1"

/-- The leg of the requested connection. -/
def legAB : Leg := mkLeg "A" "B" "t1" "t2"

/-- An extension leg leaving the requested destination. -/
def legBY : Leg := mkLeg "B" "Y" "t2" "t3"

/-- A leg touching neither requested endpoint. -/
def legCD : Leg := mkLeg "C" "D" "t4" "t5"

/-- Baseline journey priced 100. -/
def jA : BaahnJourney := ⟨[legAB], some ⟨some 100⟩, none⟩

/-- Origin-extended candidate priced 80. -/
def jB : BaahnJourney := ⟨[legXA, legAB], some ⟨some 80⟩, none⟩

/-- Destination-extended candidate priced 60. -/
def jC : BaahnJourney := ⟨[legAB, legBY], some ⟨some 60⟩, none⟩

/-- A journey whose price amount is exactly zero. -/
def jZero : BaahnJourney := ⟨[legAB], some ⟨some 0⟩, none⟩

/-- A candidate with the baseline legs at the baseline price. -/
def jEq : BaahnJourney := ⟨[legAB], some ⟨some 100⟩, none⟩

/-- A candidate whose legs never touch the requested endpoints, so trimming
exhausts them. -/
def jBad : BaahnJourney := ⟨[legCD], some ⟨some 10⟩, none⟩

/-- The baseline index holding `jA`. -/
def M1 : JourneyMap := buildBaseline [jA]

/-- A station graph where only station B has a neighbor. -/
def g0 : StationGraph := fun s => if s = "B" then some ["Y"] else none

/-- A provider answering the baseline query with `jA`, the destination
extension with `jC`, and rejecting everything else. -/
def search0 : Query → Settled := fun q =>
  if q = ⟨"A", "B", none⟩ then Settled.fulfilled [jA]
  else if q = ⟨"A", "Y", some "B"⟩ then Settled.fulfilled [jC]
  else Settled.rejected

/-- A provider rejecting every query. -/
def searchRej : Query → Settled := fun _ => Settled.rejected

theorem getJ_setJ_self (M : JourneyMap) (k : String) (v : BaahnJourney) :
    getJ (setJ M k v) k = some v := by
  induction M with
  | nil => simp [setJ, getJ]
  | cons p rest ih =>
    by_cases h : p.1 = k
    · simp [setJ, getJ, h]
    · simp [setJ, getJ, h, ih]

theorem getJ_setJ_ne (M : JourneyMap) (k k' : String) (v : BaahnJourney) (h : k' ≠ k) :
    getJ (setJ M k v) k' = getJ M k' := by
  have hkk : ¬(k = k') := fun he => h he.symm
  induction M with
  | nil => simp [setJ, getJ, hkk]
  | cons p rest ih =>
    by_cases hp : p.1 = k
    · subst hp
      simp [setJ, getJ, hkk]
    · simp [setJ, getJ, hp, ih]

theorem mem_setJ {M : JourneyMap} {k : String} {v : BaahnJourney} {p : String × BaahnJourney}
    (hp : p ∈ setJ M k v) : p = (k, v) ∨ p ∈ M := by
  induction M with
  | nil => simp [setJ] at hp; exact Or.inl hp
  | cons q rest ih =>
    by_cases h : q.1 = k
    · rw [setJ, if_pos h] at hp
      rcases List.mem_cons.mp hp with h1 | h1
      · exact Or.inl h1
      · exact Or.inr (List.mem_cons_of_mem _ h1)
    · rw [setJ, if_neg h] at hp
      rcases List.mem_cons.mp hp with h1 | h1
      · exact Or.inr (h1 ▸ List.mem_cons_self _ _)
      · rcases ih h1 with h2 | h2
        · exact Or.inl h2
        · exact Or.inr (List.mem_cons_of_mem _ h2)

theorem getJ_mem {M : JourneyMap} {k : String} {v : BaahnJourney}
    (h : getJ M k = some v) : (k, v) ∈ M := by
  induction M with
  | nil => simp [getJ] at h
  | cons p rest ih =>
    by_cases hp : p.1 = k
    · rw [getJ, if_pos hp] at h
      have : p = (k, v) := by
        cases p
        simp_all
      exact this ▸ List.mem_cons_self _ _
    · rw [getJ, if_neg hp] at h
      exact List.mem_cons_of_mem _ (ih h)

theorem keysOf_setJ (M : JourneyMap) (k : String) (v : BaahnJourney) :
    keysOf (setJ M k v) = if k ∈ keysOf M then keysOf M else keysOf M ++ [k] := by
  induction M with
  | nil => simp [setJ, keysOf]
  | cons p rest ih =>
    by_cases h : p.1 = k
    · simp [setJ, keysOf, h]
    · have hsetJ : setJ (p :: rest) k v
          = if p.1 = k then (k, v) :: rest else p :: setJ rest k v := rfl
      have hkco : ∀ (q : String × BaahnJourney) (l : JourneyMap),
          keysOf (q :: l) = q.1 :: keysOf l := fun _ _ => rfl
      rw [hsetJ, if_neg h, hkco, ih, hkco]
      by_cases hk : k ∈ keysOf rest
      · rw [if_pos hk, if_pos (List.mem_cons_of_mem _ hk)]
      · have hnot : ¬(k ∈ p.1 :: keysOf rest) := by
          intro hc
          rcases List.mem_cons.mp hc with hc | hc
          · exact h hc.symm
          · exact hk hc
        rw [if_neg hk, if_neg hnot]
        rfl

theorem nodup_keys_setJ {M : JourneyMap} (k : String) (v : BaahnJourney)
    (h : (keysOf M).Nodup) : (keysOf (setJ M k v)).Nodup := by
  rw [keysOf_setJ]
  by_cases hk : k ∈ keysOf M
  · simp [hk, h]
  · simp [hk, h, List.nodup_append]

theorem getJ_of_mem_nodup {M : JourneyMap} {k : String} {v : BaahnJourney}
    (hnd : (keysOf M).Nodup) (hm : (k, v) ∈ M) : getJ M k = some v := by
  induction M with
  | nil => simp at hm
  | cons p rest ih =>
    rcases List.mem_cons.mp hm with h1 | h1
    · rw [← h1, getJ, if_pos rfl]
    · have hk : k ∈ keysOf rest := List.mem_map.mpr ⟨(k, v), h1, rfl⟩
      have hp : p.1 ≠ k := by
        intro he
        have := (List.nodup_cons.mp hnd).1
        rw [keysOf, List.map_cons] at hnd
        exact (List.nodup_cons.mp hnd).1 (he ▸ hk)
      rw [getJ, if_neg hp]
      exact ih (List.nodup_cons.mp (by rwa [keysOf, List.map_cons] at hnd)).2 h1

theorem trim_decomposition (legs : List Leg) (fr toS : String) :
    (trimLegs legs fr toS).1 ++ (trimLegs legs fr toS).2.1 ++ (trimLegs legs fr toS).2.2 = legs := by
  unfold trimLegs
  dsimp only
  conv_rhs =>
    rw [← List.takeWhile_append_dropWhile (p := fun l => decide (legOriginId l ≠ some fr))
      (l := legs)]
  rw [List.append_assoc]
  congr 1
  rw [← List.reverse_append, List.takeWhile_append_dropWhile, List.reverse_reverse]

/-- Complete case analysis of `update`: it either leaves the map unchanged,
or all guards passed — the trimmed middle is nonempty, a stored journey
with a nonzero known amount exists under its hash, the candidate amount is
known and strictly smaller — and the trimmed candidate is stored with the
trick attached. -/
theorem update_spec (M : JourneyMap) (j : BaahnJourney) (fr toS : String) :
    update M j fr toS = M ∨
    ∃ oldJ oa a,
      trimmedMiddle j fr toS ≠ [] ∧
      getJ M (hashLegs (trimmedMiddle j fr toS)) = some oldJ ∧
      priceAmount oldJ = some oa ∧ oa ≠ 0 ∧
      priceAmount j = some a ∧ a < oa ∧
      update M j fr toS =
        setJ M (hashLegs (trimmedMiddle j fr toS))
          { j with legs := trimmedMiddle j fr toS,
                   trick := some ⟨trimmedPrepend j fr toS, trimmedAppend j fr toS,
                                  (oldJ.trick.map Trick.oldPrice).getD oa⟩ } := by
  unfold update
  split
  · exact Or.inl rfl
  split
  · exact Or.inl rfl
  next hmid =>
  split
  · exact Or.inl rfl
  next oldJ hget =>
  split
  · exact Or.inl rfl
  next oa hpa =>
  split
  · exact Or.inl rfl
  next hz =>
  split
  · exact Or.inl rfl
  next a ha =>
  split
  · exact Or.inl rfl
  next hle =>
  exact Or.inr ⟨oldJ, oa, a, hmid, hget, hpa, hz, ha, lt_of_not_le hle, rfl⟩

theorem foldl_pres {α : Type} (f : JourneyMap → α → JourneyMap) (P : JourneyMap → Prop)
    (hstep : ∀ M x, P M → P (f M x)) :
    ∀ (l : List α) (M : JourneyMap), P M → P (l.foldl f M) := by
  intro l
  induction l with
  | nil => exact fun M h => h
  | cons x xs ih => exact fun M h => ih (f M x) (hstep M x h)

theorem baselineInsert_skip {M : JourneyMap} {j : BaahnJourney}
    (h : priceAmount j = none ∨ priceAmount j = some 0) : baselineInsert M j = M := by
  unfold baselineInsert
  rcases h with h | h
  · rw [h]
  · rw [h]
    show (if (0 : ℚ) = 0 then M else setJ M (hashLegs j.legs) j) = M
    rw [if_pos rfl]

theorem baselineInsert_store {M : JourneyMap} {j : BaahnJourney} {a : ℚ}
    (h : priceAmount j = some a) (hz : a ≠ 0) :
    baselineInsert M j = setJ M (hashLegs j.legs) j := by
  unfold baselineInsert
  rw [h]
  show (if a = 0 then M else setJ M (hashLegs j.legs) j) = _
  rw [if_neg hz]

theorem mem_foldl_baselineInsert :
    ∀ (js : List BaahnJourney) (M : JourneyMap) (p : String × BaahnJourney),
      p ∈ js.foldl baselineInsert M → p ∈ M ∨ p.2 ∈ js := by
  intro js
  induction js with
  | nil => exact fun M p hp => Or.inl hp
  | cons j rest ih =>
    intro M p hp
    rcases ih (baselineInsert M j) p hp with h1 | h1
    · cases hpa : priceAmount j with
      | none => rw [baselineInsert_skip (Or.inl hpa)] at h1; exact Or.inl h1
      | some a =>
        by_cases hz : a = 0
        · subst hz
          rw [baselineInsert_skip (Or.inr hpa)] at h1
          exact Or.inl h1
        · rw [baselineInsert_store hpa hz] at h1
          rcases mem_setJ h1 with h2 | h2
          · right
            rw [h2]
            exact List.mem_cons_self _ _
          · exact Or.inl h2
    · exact Or.inr (List.mem_cons_of_mem _ h1)

theorem mem_buildBaseline {js : List BaahnJourney} {p : String × BaahnJourney}
    (hp : p ∈ buildBaseline js) : p.2 ∈ js := by
  rcases mem_foldl_baselineInsert js [] p hp with h | h
  · simp at h
  · exact h

theorem nodup_keys_baselineInsert {M : JourneyMap} (j : BaahnJourney)
    (h : (keysOf M).Nodup) : (keysOf (baselineInsert M j)).Nodup := by
  cases hpa : priceAmount j with
  | none => rw [baselineInsert_skip (Or.inl hpa)]; exact h
  | some a =>
    by_cases hz : a = 0
    · subst hz
      rw [baselineInsert_skip (Or.inr hpa)]
      exact h
    · rw [baselineInsert_store hpa hz]
      exact nodup_keys_setJ _ _ h

theorem nodup_keys_buildBaseline (js : List BaahnJourney) :
    (keysOf (buildBaseline js)).Nodup :=
  foldl_pres baselineInsert (fun M => (keysOf M).Nodup)
    (fun _ j h => nodup_keys_baselineInsert j h) js [] (by simp [keysOf])

theorem coherent_baselineInsert {M : JourneyMap} {j : BaahnJourney}
    (h : coherentMap M) : coherentMap (baselineInsert M j) := by
  cases hpa : priceAmount j with
  | none => rw [baselineInsert_skip (Or.inl hpa)]; exact h
  | some a =>
    by_cases hz : a = 0
    · subst hz
      rw [baselineInsert_skip (Or.inr hpa)]
      exact h
    · rw [baselineInsert_store hpa hz]
      intro p hp
      rcases mem_setJ hp with h1 | h1
      · rw [h1]
      · exact h p h1

theorem coherent_buildBaseline (js : List BaahnJourney) : coherentMap (buildBaseline js) :=
  foldl_pres baselineInsert coherentMap (fun _ _ h => coherent_baselineInsert h) js []
    (by intro p hp; simp at hp)

theorem coherent_update {M : JourneyMap} {j : BaahnJourney} {fr toS : String}
    (h : coherentMap M) : coherentMap (update M j fr toS) := by
  rcases update_spec M j fr toS with he | ⟨oldJ, oa, a, hmid, hget, hpa, hz, ha, hlt, he⟩
  · rw [he]; exact h
  · rw [he]
    intro p hp
    rcases mem_setJ hp with h1 | h1
    · rw [h1]
    · exact h p h1

theorem tricksBounded_buildBaseline {js : List BaahnJourney}
    (h : ∀ j ∈ js, j.trick = none) : tricksBounded (buildBaseline js) := by
  intro p hp t ht
  rw [h p.2 (mem_buildBaseline hp)] at ht
  exact absurd ht (by simp)

theorem tricksBounded_update {M : JourneyMap} {j : BaahnJourney} {fr toS : String}
    (h : tricksBounded M) : tricksBounded (update M j fr toS) := by
  rcases update_spec M j fr toS with he | ⟨oldJ, oa, a, hmid, hget, hpa, hz, ha, hlt, he⟩
  · rw [he]; exact h
  · rw [he]
    intro p hp t ht
    rcases mem_setJ hp with h1 | h1
    · subst h1
      have ht2 : some (Trick.mk (trimmedPrepend j fr toS) (trimmedAppend j fr toS)
          ((oldJ.trick.map Trick.oldPrice).getD oa)) = some t := ht
      cases Option.some.inj ht2
      refine ⟨a, ha, ?_⟩
      cases htr : oldJ.trick with
      | none => simpa [htr] using hlt
      | some t' =>
        obtain ⟨a2, hpa2, hlt2⟩ := h _ (getJ_mem hget) t' htr
        have ha2 : oa = a2 := by
          rw [hpa] at hpa2
          exact Option.some.inj hpa2
        simpa [htr] using lt_trans hlt (ha2 ▸ hlt2)
    · exact h p h1 t ht

theorem anchored_buildBaseline {js : List BaahnJourney}
    (h : ∀ j ∈ js, j.trick = none) :
    anchoredTo (buildBaseline js) (buildBaseline js) := by
  intro p hp
  constructor
  · intro _
    exact getJ_of_mem_nodup (nodup_keys_buildBaseline js) hp
  · intro t ht
    rw [h p.2 (mem_buildBaseline hp)] at ht
    exact absurd ht (by simp)

theorem anchored_update {M0 M : JourneyMap} {j : BaahnJourney} {fr toS : String}
    (h : anchoredTo M0 M) : anchoredTo M0 (update M j fr toS) := by
  rcases update_spec M j fr toS with he | ⟨oldJ, oa, a, hmid, hget, hpa, hz, ha, hlt, he⟩
  · rw [he]; exact h
  · rw [he]
    intro p hp
    rcases mem_setJ hp with h1 | h1
    · subst h1
      constructor
      · intro hnone
        exact absurd hnone (by simp)
      · intro t ht
        have ht2 : some (Trick.mk (trimmedPrepend j fr toS) (trimmedAppend j fr toS)
            ((oldJ.trick.map Trick.oldPrice).getD oa)) = some t := ht
        cases Option.some.inj ht2
        have hOld := h _ (getJ_mem hget)
        cases htr : oldJ.trick with
        | none =>
          refine ⟨oldJ, hOld.1 htr, ?_⟩
          simpa [htr] using hpa
        | some t' =>
          obtain ⟨b, hb, hbp⟩ := hOld.2 t' htr
          refine ⟨b, hb, ?_⟩
          simpa [htr] using hbp
    · exact h p h1

theorem settled_fold_pres (P : JourneyMap → Prop) (fr toS : String)
    (hu : ∀ M j, P M → P (update M j fr toS)) (cs : List Settled) (M : JourneyMap)
    (h : P M) : P (cs.foldl (fun M c => applySettled M c fr toS) M) := by
  apply foldl_pres _ P _ cs M h
  intro M c hM
  cases c with
  | fulfilled js => exact foldl_pres _ P hu js M hM
  | rejected => exact hM

theorem mem_valuesJ {M : JourneyMap} {e : BaahnJourney} (he : e ∈ valuesJ M) :
    ∃ p ∈ M, p.2 = e := by
  rcases List.mem_map.mp he with ⟨p, hp, hpe⟩
  exact ⟨p, hp, hpe⟩

theorem buildRequests_cons (g : StationGraph) (fr toS : String) :
    buildRequests g fr toS none
      = Query.mk fr toS none
        :: (((adjacentStations g fr).map fun n => Query.mk n toS (some fr))
          ++ (adjacentStations g toS).map fun m => Query.mk fr m (some toS)) := by
  unfold buildRequests
  simp

/-- C2: for every origin, destination and base options, the planner
produces exactly `1 + |neighbors(from)| + |neighbors(to)|` queries, in this
order: first the unmodified `(from, to)` pair with no via constraint, then
one query `(n, to)` with `via = from` per neighbor `n` of `from` in
adjacency order, then one query `(from, m)` with `via = to` per neighbor
`m` of `to` in adjacency order — every destination-extension query keeps
the original `from` as its origin. -/
theorem claim_C2 (g : StationGraph) (fr toS : String) :
    buildRequests g fr toS none
      = Query.mk fr toS none
        :: (((adjacentStations g fr).map fun n => Query.mk n toS (some fr))
          ++ (adjacentStations g toS).map fun m => Query.mk fr m (some toS))
    ∧ (buildRequests g fr toS none).length
      = 1 + (adjacentStations g fr).length + (adjacentStations g toS).length := by
  refine ⟨buildRequests_cons g fr toS, ?_⟩
  rw [buildRequests_cons]
  simp [List.length_append]
  omega

/-- C4: if the baseline (first) query's outcome is a failure, `findJourneys`
returns the empty list, whatever the extension queries returned; likewise an
empty settled-outcome list merges to the empty list. -/
theorem claim_C4 (g : StationGraph) (search : Query → Settled) (fr toS : String)
    (optVia : Option String) :
    (search (Query.mk fr toS none) = Settled.rejected →
      findJourneys g search fr toS optVia = [])
    ∧ mergeConnections [] fr toS = [] := by
  constructor
  · intro h
    show mergeConnections ((buildRequests g fr toS none).map search) fr toS = []
    rw [buildRequests_cons, List.map_cons, h]
    rfl
  · rfl

/-- C4 witness: with a provider rejecting everything, including the
baseline query, the orchestrator returns the empty list. -/
theorem claim_C4_witness :
    searchRej (Query.mk "A" "B" none) = Settled.rejected
    ∧ findJourneys g0 searchRej "A" "B" none = [] :=
  ⟨by decide, (claim_C4 g0 searchRej "A" "B" none).1 (by decide)⟩

/-- C3 (amended): when the initial result map is built from the baseline
itineraries, a journey is skipped iff its price amount is JS-falsy — the
price object or its amount absent, or the amount exactly 0; otherwise it is
stored keyed by the hash of its legs.  The original claim that a journey
with amount exactly 0 is inserted is refuted by `claim_C3_cex`. -/
theorem claim_C3 (M : JourneyMap) (j : BaahnJourney) :
    ((priceAmount j = none ∨ priceAmount j = some 0) → baselineInsert M j = M)
    ∧ (∀ a : ℚ, priceAmount j = some a → a ≠ 0 →
        baselineInsert M j = setJ M (hashLegs j.legs) j) :=
  ⟨fun h => baselineInsert_skip h, fun _ h hz => baselineInsert_store h hz⟩

/-- C3 counterexample: a baseline itinerary priced exactly 0 is NOT
inserted into the result map — the map stays empty and the lookup under its
leg identity fails, contradicting the claim as stated. -/
theorem claim_C3_cex :
    buildBaseline [jZero] = []
    ∧ getJ (buildBaseline [jZero]) (hashLegs jZero.legs) = none := by
  decide

/-- C3 witness: a journey with the nonzero known amount 100 is stored. -/
theorem claim_C3_witness :
    priceAmount jA = some 100
    ∧ baselineInsert [] jA = setJ [] (hashLegs jA.legs) jA :=
  ⟨by decide, (claim_C3 [] jA).2 100 (by decide) (by decide)⟩

/-- C5: `update` replaces a result-map entry only when the candidate's
price amount is strictly lower than the stored entry's amount; when the
stored entry's amount is absent, or is lower than or equal to the
candidate's amount, the map is left entirely unchanged. -/
theorem claim_C5 (M : JourneyMap) (j : BaahnJourney) (fr toS : String) :
    (∀ oldJ, getJ M (hashLegs (trimmedMiddle j fr toS)) = some oldJ →
      priceAmount oldJ = none → update M j fr toS = M)
    ∧ (∀ oldJ oa a, getJ M (hashLegs (trimmedMiddle j fr toS)) = some oldJ →
        priceAmount oldJ = some oa → priceAmount j = some a → oa ≤ a →
        update M j fr toS = M)
    ∧ (update M j fr toS ≠ M →
        ∃ oldJ oa a, getJ M (hashLegs (trimmedMiddle j fr toS)) = some oldJ ∧
          priceAmount oldJ = some oa ∧ priceAmount j = some a ∧ a < oa) := by
  refine ⟨?_, ?_, ?_⟩
  · intro oldJ hget hpa
    rcases update_spec M j fr toS with he | ⟨oldJ', oa', a', _, hget', hpa', _, _, _, _⟩
    · exact he
    · rw [hget] at hget'
      cases Option.some.inj hget'
      rw [hpa] at hpa'
      exact absurd hpa' (by simp)
  · intro oldJ oa a hget hpa ha hle
    rcases update_spec M j fr toS with he | ⟨oldJ', oa', a', _, hget', hpa', _, ha', hlt', _⟩
    · exact he
    · rw [hget] at hget'
      cases Option.some.inj hget'
      rw [hpa] at hpa'
      cases Option.some.inj hpa'
      rw [ha] at ha'
      cases Option.some.inj ha'
      exact absurd hlt' (not_lt.mpr hle)
  · intro hne
    rcases update_spec M j fr toS with he | ⟨oldJ, oa, a, _, hget, hpa, _, ha, hlt, _⟩
    · exact absurd he hne
    · exact ⟨oldJ, oa, a, hget, hpa, ha, hlt⟩

/-- C5 witness: an equally-priced candidate (100 against stored 100) leaves
the map entirely unchanged. -/
theorem claim_C5_witness :
    (getJ M1 (hashLegs (trimmedMiddle jEq "A" "B")) = some jA
      ∧ priceAmount jA = some 100 ∧ priceAmount jEq = some 100)
    ∧ update M1 jEq "A" "B" = M1 :=
  ⟨⟨by decide, by decide, by decide⟩,
    (claim_C5 M1 jEq "A" "B").2.1 jA 100 100 (by decide) (by decide) (by decide) (by decide)⟩

/-- C6: a candidate whose front- and back-trimming exhausts all legs is
discarded: `update` leaves any map unchanged, reconciling a journey list
containing it equals reconciling the list without it, and the final merged
result of the orchestrator is unaffected by its presence among the
extension results. -/
theorem claim_C6 (j : BaahnJourney) (fr toS : String)
    (h : trimmedMiddle j fr toS = []) :
    (∀ M, update M j fr toS = M)
    ∧ (∀ (M : JourneyMap) (l1 l2 : List BaahnJourney),
        reconcileJourneys M (l1 ++ j :: l2) fr toS = reconcileJourneys M (l1 ++ l2) fr toS)
    ∧ (∀ (base : Settled) (rest1 rest2 : List Settled) (js1 js2 : List BaahnJourney),
        mergeConnections (base :: (rest1 ++ Settled.fulfilled (js1 ++ j :: js2) :: rest2)) fr toS
          = mergeConnections (base :: (rest1 ++ Settled.fulfilled (js1 ++ js2) :: rest2)) fr toS)
    := by
  have h1 : ∀ M, update M j fr toS = M := by
    intro M
    rcases update_spec M j fr toS with he | ⟨_, _, _, hmid, _⟩
    · exact he
    · exact absurd h hmid
  have h2 : ∀ (M : JourneyMap) (l1 l2 : List BaahnJourney),
      reconcileJourneys M (l1 ++ j :: l2) fr toS = reconcileJourneys M (l1 ++ l2) fr toS := by
    intro M l1 l2
    simp only [reconcileJourneys, List.foldl_append, List.foldl_cons]
    rw [h1]
  refine ⟨h1, h2, ?_⟩
  intro base rest1 rest2 js1 js2
  cases base with
  | rejected => rfl
  | fulfilled bjs =>
    show valuesJ _ = valuesJ _
    congr 1
    simp only [List.foldl_append, List.foldl_cons]
    congr 1
    show reconcileJourneys _ (js1 ++ j :: js2) fr toS = reconcileJourneys _ (js1 ++ js2) fr toS
    exact h2 _ js1 js2

/-- C6 witness: a candidate touching neither requested endpoint trims to
nothing and leaves the map holding the baseline untouched. -/
theorem claim_C6_witness :
    trimmedMiddle jBad "A" "B" = [] ∧ update M1 jBad "A" "B" = M1 :=
  ⟨by decide, (claim_C6 jBad "A" "B" (by decide)).1 M1⟩

/-- C7: `update` is idempotent — applying it twice with the same candidate
leaves the map exactly as after the first application. -/
theorem claim_C7 (M : JourneyMap) (j : BaahnJourney) (fr toS : String) :
    update (update M j fr toS) j fr toS = update M j fr toS := by
  rcases update_spec M j fr toS with he | ⟨oldJ, oa, a, hmid, hget, hpa, hz, ha, hlt, he⟩
  · rw [he]
    exact he
  · rw [he]
    rcases update_spec (setJ M (hashLegs (trimmedMiddle j fr toS))
        { j with legs := trimmedMiddle j fr toS,
                 trick := some ⟨trimmedPrepend j fr toS, trimmedAppend j fr toS,
                                (oldJ.trick.map Trick.oldPrice).getD oa⟩ }) j fr toS with
      he2 | ⟨oldJ2, oa2, a2, hmid2, hget2, hpa2, hz2, ha2, hlt2, he2⟩
    · exact he2
    · exfalso
      rw [getJ_setJ_self] at hget2
      cases Option.some.inj hget2
      have hpa2' : priceAmount j = some oa2 := hpa2
      rw [ha] at hpa2'
      cases Option.some.inj hpa2'
      rw [ha] at ha2
      cases Option.some.inj ha2
      exact lt_irrefl a hlt2

/-- C8: whenever `update` attaches an improvement record, its `prepend`
buffer is exactly the front-trimmed legs in order, its `append` buffer
exactly the back-trimmed legs in travel order, and
`prepend ++ remaining ++ append` reassembles the candidate's original leg
sequence. -/
theorem claim_C8 (M : JourneyMap) (j : BaahnJourney) (fr toS : String)
    (hne : update M j fr toS ≠ M) :
    ∃ t : Trick,
      update M j fr toS
        = setJ M (hashLegs (trimmedMiddle j fr toS))
            { j with legs := trimmedMiddle j fr toS, trick := some t }
      ∧ t.prepend = trimmedPrepend j fr toS
      ∧ t.append = trimmedAppend j fr toS
      ∧ t.prepend ++ trimmedMiddle j fr toS ++ t.append = j.legs := by
  rcases update_spec M j fr toS with he | ⟨oldJ, oa, a, hmid, hget, hpa, hz, ha, hlt, he⟩
  · exact absurd he hne
  · exact ⟨⟨trimmedPrepend j fr toS, trimmedAppend j fr toS,
      (oldJ.trick.map Trick.oldPrice).getD oa⟩, he, rfl, rfl,
      trim_decomposition j.legs fr toS⟩

/-- C8 witness: the origin-extended candidate `jB` improves the baseline
and its trick reassembles the original legs. -/
theorem claim_C8_witness :
    update M1 jB "A" "B" ≠ M1
    ∧ ∃ t : Trick,
        update M1 jB "A" "B"
          = setJ M1 (hashLegs (trimmedMiddle jB "A" "B"))
              { jB with legs := trimmedMiddle jB "A" "B", trick := some t }
        ∧ t.prepend = trimmedPrepend jB "A" "B"
        ∧ t.append = trimmedAppend jB "A" "B"
        ∧ t.prepend ++ trimmedMiddle jB "A" "B" ++ t.append = jB.legs :=
  ⟨by decide, claim_C8 M1 jB "A" "B" (by decide)⟩

/-- C9: key coherence — every key of the baseline index equals the leg-hash
of the journey stored under it, and one `update` application preserves this
property, so it holds at every point of a `findJourneys` call. -/
theorem claim_C9 (bjs : List BaahnJourney) (M : JourneyMap) (j : BaahnJourney)
    (fr toS : String) :
    coherentMap (buildBaseline bjs)
    ∧ (coherentMap M → coherentMap (update M j fr toS)) :=
  ⟨coherent_buildBaseline bjs, fun h => coherent_update h⟩

/-- C9 witness: the concrete baseline index is coherent and stays coherent
after reconciling the improving candidate `jB`. -/
theorem claim_C9_witness :
    coherentMap M1 ∧ coherentMap (update M1 jB "A" "B") :=
  ⟨by unfold coherentMap M1; decide,
    (claim_C9 [jA] M1 jB "A" "B").2 (by unfold coherentMap M1; decide)⟩

/-- C1: in the final merged map, every journey carrying an improvement
record has `trick.oldPrice` equal to the price amount of the baseline
itinerary stored under the same leg identity in the initial baseline index,
however many chained improvements occurred, in whatever order the
candidates were reconciled. -/
theorem claim_C1 (bjs : List BaahnJourney) (rest : List Settled) (fr toS : String)
    (hb : ∀ j ∈ bjs, j.trick = none) :
    ∀ e ∈ mergeConnections (Settled.fulfilled bjs :: rest) fr toS,
      ∀ t, e.trick = some t →
        ∃ b, getJ (buildBaseline bjs) (hashLegs e.legs) = some b
          ∧ priceAmount b = some t.oldPrice := by
  intro e he t ht
  have hfinal : anchoredTo (buildBaseline bjs)
      (rest.foldl (fun M c => applySettled M c fr toS) (buildBaseline bjs)) :=
    settled_fold_pres _ fr toS (fun _ _ h => anchored_update h) rest _
      (anchored_buildBaseline hb)
  have hcoh : coherentMap
      (rest.foldl (fun M c => applySettled M c fr toS) (buildBaseline bjs)) :=
    settled_fold_pres _ fr toS (fun _ _ h => coherent_update h) rest _
      (coherent_buildBaseline bjs)
  have he' : e ∈ valuesJ
      (rest.foldl (fun M c => applySettled M c fr toS) (buildBaseline bjs)) := he
  obtain ⟨p, hp, rfl⟩ := mem_valuesJ he'
  have hkey := hcoh p hp
  have hanch := (hfinal p hp).2 t ht
  rw [← hkey]
  exact hanch

/-- C1 witness: baseline 100 improved by 80 improved by 60 still anchors
`oldPrice` at the original baseline price. -/
theorem claim_C1_witness :
    (∀ j ∈ [jA], j.trick = none)
    ∧ (∃ e ∈ mergeConnections
        (Settled.fulfilled [jA] :: [Settled.fulfilled [jB], Settled.fulfilled [jC]]) "A" "B",
        ∃ t, e.trick = some t ∧ t.oldPrice = 100 ∧ priceAmount e = some 60)
    ∧ ∀ e ∈ mergeConnections
        (Settled.fulfilled [jA] :: [Settled.fulfilled [jB], Settled.fulfilled [jC]]) "A" "B",
        ∀ t, e.trick = some t →
          ∃ b, getJ (buildBaseline [jA]) (hashLegs e.legs) = some b
            ∧ priceAmount b = some t.oldPrice :=
  ⟨by decide, by decide,
    claim_C1 [jA] [Settled.fulfilled [jB], Settled.fulfilled [jC]] "A" "B" (by decide)⟩

/-- C10: every journey returned by `findJourneys` that carries an
improvement record has a known price amount strictly below the
`trick.oldPrice` it reports, provided the provider's baseline journeys
carry no pre-existing trick. -/
theorem claim_C10 (g : StationGraph) (search : Query → Settled) (fr toS : String)
    (optVia : Option String)
    (hb : ∀ j ∈ journeysOf (search (Query.mk fr toS none)), j.trick = none) :
    ∀ e ∈ findJourneys g search fr toS optVia,
      ∀ t, e.trick = some t →
        ∃ a, priceAmount e = some a ∧ a < t.oldPrice := by
  intro e he t ht
  have he' : e ∈ mergeConnections ((buildRequests g fr toS none).map search) fr toS := he
  rw [buildRequests_cons, List.map_cons] at he'
  cases hs : search (Query.mk fr toS none) with
  | rejected =>
    rw [hs] at he'
    have hnil : e ∈ ([] : List BaahnJourney) := he'
    simp at hnil
  | fulfilled bjs =>
    rw [hs] at he'
    rw [hs] at hb
    have hb' : ∀ j ∈ bjs, j.trick = none := hb
    have he'' : e ∈ valuesJ
        ((List.map search
            (((adjacentStations g fr).map fun n => Query.mk n toS (some fr))
              ++ (adjacentStations g toS).map fun m => Query.mk fr m (some toS))).foldl
          (fun M c => applySettled M c fr toS) (buildBaseline bjs)) := he'
    have hbound : tricksBounded
        ((List.map search
            (((adjacentStations g fr).map fun n => Query.mk n toS (some fr))
              ++ (adjacentStations g toS).map fun m => Query.mk fr m (some toS))).foldl
          (fun M c => applySettled M c fr toS) (buildBaseline bjs)) :=
      settled_fold_pres _ fr toS (fun _ _ h => tricksBounded_update h) _ _
        (tricksBounded_buildBaseline hb')
    obtain ⟨p, hp, rfl⟩ := mem_valuesJ he''
    exact hbound p hp t ht

/-- C10 witness: with a provider offering the 100-priced baseline and a
60-priced destination extension, the improved result's amount 60 is
strictly below its recorded old price 100. -/
theorem claim_C10_witness :
    (∀ j ∈ journeysOf (search0 (Query.mk "A" "B" none)), j.trick = none)
    ∧ (∃ e ∈ findJourneys g0 search0 "A" "B" none, e.trick ≠ none)
    ∧ ∀ e ∈ findJourneys g0 search0 "A" "B" none,
        ∀ t, e.trick = some t →
          ∃ a, priceAmount e = some a ∧ a < t.oldPrice :=
  ⟨by decide, by decide, claim_C10 g0 search0 "A" "B" none (by decide)⟩

end Baahn
